import Mathlib

/-!
Shallow embedding of the NiftyNet grid-based patch sampler
(`src/engine/grid_sampler.py`).

The embedding follows the Python source:
* `_enumerate_step_points` is the while-loop that records sampling points,
  followed by the unconditional boundary point and `np.unique`
  (sort + deduplicate).
* `generate_grid_coordinates` computes floor/ceil of the (possibly
  fractional) spatial rank, runs the step enumerator along each windowed
  dimension (plus the auxiliary dimension with window 1 / step 1 when the
  rank is fractional), forms the `np.meshgrid` cross product and lays the
  start/end columns out into coordinate rows.
* `GridSampler.layer_op` is modelled per volume: batch padding
  (`extra_patches` / `extend_n_patches`) and the emission loop that indexes
  `locations[i % n_patches]`.

Numbers are modelled as `ℕ` (all quantities at the call sites are
non-negative sizes and indices); `grid_size` is `ℤ` so that the
`grid_size <= 0` disabled-sampling branch is faithful; the float
`spatial_rank` is modelled as `ℚ`.  Python exceptions (the fatal `assert`,
and the crash on dereferencing `None`) are modelled as explicit result
constructors / `Option.none`.
-/

/-- Sorted-insert used to model `np.unique`: inserts `x` into an ascending
duplicate-free list, keeping it ascending and duplicate-free. -/
def insertSortedUnique (x : ℕ) : List ℕ → List ℕ
  | [] => [x]
  | y :: ys =>
    if x < y then x :: y :: ys
    else if x = y then y :: ys
    else y :: insertSortedUnique x ys

/-- Model of `np.unique`: the ascending sequence of the distinct values of
a list. -/
def npUnique (l : List ℕ) : List ℕ := l.foldr insertSortedUnique []

/-- Fuel-indexed version of the while loop in `_enumerate_step_points`:
`while (starting + win_size) <= ending: record starting; starting += step_size`.
The fuel only serves termination; `ending + 1 - starting` units are enough
whenever `step_size > 0` (the case in which the Python loop terminates). -/
def stepPointsFuel : ℕ → ℕ → ℕ → ℕ → ℕ → List ℕ
  | 0, _, _, _, _ => []
  | fuel + 1, starting, ending, win_size, step_size =>
    if starting + win_size ≤ ending then
      starting :: stepPointsFuel fuel (starting + step_size) ending win_size step_size
    else []

/-- The recorded points of the while loop in `_enumerate_step_points`. -/
def stepPointsLoop (starting ending win_size step_size : ℕ) : List ℕ :=
  stepPointsFuel (ending + 1 - starting) starting ending win_size step_size

/-- Model of `_enumerate_step_points(starting, ending, win_size, step_size)`:
the loop-recorded points, then the unconditional boundary point
`np.max((ending - win_size, 0))`, passed through `np.unique`. -/
def _enumerate_step_points (starting ending win_size step_size : ℕ) : List ℕ :=
  npUnique (stepPointsLoop starting ending win_size step_size ++ [max (ending - win_size) 0])

theorem mem_insertSortedUnique (x a : ℕ) (l : List ℕ) :
    a ∈ insertSortedUnique x l ↔ a = x ∨ a ∈ l := by
  induction l with
  | nil => simp [insertSortedUnique]
  | cons y ys ih =>
    by_cases hlt : x < y
    · simp [insertSortedUnique, hlt]
    · by_cases heq : x = y
      · subst heq
        simp [insertSortedUnique, hlt]
      · simp [insertSortedUnique, hlt, heq, ih]
        tauto

theorem sorted_insertSortedUnique (x : ℕ) (l : List ℕ)
    (hl : List.Sorted (· < ·) l) :
    List.Sorted (· < ·) (insertSortedUnique x l) := by
  induction l with
  | nil => simp [insertSortedUnique]
  | cons y ys ih =>
    rw [List.sorted_cons] at hl
    obtain ⟨hy, hys⟩ := hl
    by_cases hlt : x < y
    · rw [insertSortedUnique, if_pos hlt, List.sorted_cons]
      refine ⟨?_, by rw [List.sorted_cons]; exact ⟨hy, hys⟩⟩
      intro b hb
      rcases List.mem_cons.mp hb with hb | hb
      · omega
      · exact lt_trans hlt (hy b hb)
    · by_cases heq : x = y
      · rw [insertSortedUnique, if_neg hlt, if_pos heq, List.sorted_cons]
        exact ⟨hy, hys⟩
      · rw [insertSortedUnique, if_neg hlt, if_neg heq, List.sorted_cons]
        constructor
        · intro b hb
          rcases (mem_insertSortedUnique x b ys).mp hb with hb | hb
          · omega
          · exact hy b hb
        · exact ih hys

theorem mem_npUnique (a : ℕ) (l : List ℕ) : a ∈ npUnique l ↔ a ∈ l := by
  induction l with
  | nil => simp [npUnique]
  | cons y ys ih =>
    rw [npUnique, List.foldr_cons]
    rw [mem_insertSortedUnique]
    rw [npUnique] at ih
    simp [ih]

theorem sorted_npUnique (l : List ℕ) : List.Sorted (· < ·) (npUnique l) := by
  induction l with
  | nil => simp [npUnique]
  | cons y ys ih =>
    rw [npUnique, List.foldr_cons]
    exact sorted_insertSortedUnique y _ ih

theorem nodup_npUnique (l : List ℕ) : (npUnique l).Nodup :=
  (sorted_npUnique l).nodup

/-- Membership in the loop-recorded points: with a positive step size and
enough fuel, the recorded points are exactly the arithmetic-progression
points whose window fits before `ending`. -/
theorem mem_stepPointsFuel (fuel starting ending win_size step_size c : ℕ)
    (hstep : 0 < step_size) (hfuel : ending + 1 - starting ≤ fuel) :
    c ∈ stepPointsFuel fuel starting ending win_size step_size ↔
      (∃ j, c = starting + j * step_size) ∧ c + win_size ≤ ending := by
  induction fuel generalizing starting with
  | zero =>
    rw [stepPointsFuel]
    simp only [List.not_mem_nil, false_iff]
    rintro ⟨⟨j, rfl⟩, hc⟩
    have : starting ≤ starting + j * step_size := Nat.le_add_right _ _
    omega
  | succ fuel ih =>
    rw [stepPointsFuel]
    by_cases hle : starting + win_size ≤ ending
    · rw [if_pos hle, List.mem_cons]
      have hfuel2 : ending + 1 - (starting + step_size) ≤ fuel := by omega
      rw [ih (starting + step_size) hfuel2]
      constructor
      · rintro (rfl | ⟨⟨j, rfl⟩, hc⟩)
        · exact ⟨⟨0, by ring⟩, hle⟩
        · exact ⟨⟨j + 1, by ring⟩, hc⟩
      · rintro ⟨⟨j, rfl⟩, hc⟩
        cases j with
        | zero => left; simp
        | succ j => right; exact ⟨⟨j, by ring⟩, hc⟩
    · rw [if_neg hle]
      simp only [List.not_mem_nil, false_iff]
      rintro ⟨⟨j, rfl⟩, hc⟩
      have : starting ≤ starting + j * step_size := Nat.le_add_right _ _
      omega

theorem mem_stepPointsLoop (starting ending win_size step_size c : ℕ)
    (hstep : 0 < step_size) :
    c ∈ stepPointsLoop starting ending win_size step_size ↔
      (∃ j, c = starting + j * step_size) ∧ c + win_size ≤ ending :=
  mem_stepPointsFuel _ _ _ _ _ _ hstep (le_refl _)

/-- Membership in the full step enumerator output. -/
theorem mem_enumerate_step_points (starting ending win_size step_size c : ℕ) :
    c ∈ _enumerate_step_points starting ending win_size step_size ↔
      c ∈ stepPointsLoop starting ending win_size step_size ∨
        c = max (ending - win_size) 0 := by
  rw [_enumerate_step_points, mem_npUnique, List.mem_append, List.mem_singleton]

theorem boundary_mem_enumerate (starting ending win_size step_size : ℕ) :
    max (ending - win_size) 0 ∈ _enumerate_step_points starting ending win_size step_size :=
  (mem_enumerate_step_points _ _ _ _ _).mpr (Or.inr rfl)

theorem enumerate_ne_nil (starting ending win_size step_size : ℕ) :
    _enumerate_step_points starting ending win_size step_size ≠ [] :=
  List.ne_nil_of_mem (boundary_mem_enumerate starting ending win_size step_size)

/-- All choice tuples of a list of lists, first coordinate varying slowest
and last coordinate fastest (row-major order). -/
def tupleList : List (List ℕ) → List (List ℕ)
  | [] => [[]]
  | l :: ls => l.flatMap fun x => (tupleList ls).map fun t => x :: t

/-- Swap of the first two entries of a list (identity on shorter lists). -/
def swap01 {α : Type} : List α → List α
  | x :: y :: rest => y :: x :: rest
  | l => l

/-- Model of `np.asarray(np.meshgrid(*ls)).reshape((len(ls), -1))`, read
column by column: `np.meshgrid` uses Cartesian indexing, which is row-major
order with the roles of the first two input lists exchanged. -/
def meshgridColumns (ls : List (List ℕ)) : List (List ℕ) :=
  (tupleList (swap01 ls)).map swap01

/-- Model of the per-dimension sampling-point lists `steps_along_each`
built by `generate_grid_coordinates`: one step-point list per windowed
dimension, plus (when an auxiliary dimension exists) the step points of
`_enumerate_step_points(0, img_size[num_windows], 1, 1)`. -/
def steps_along_each (num_windows : ℕ) (hasAux : Bool) (img_size : List ℕ)
    (win_size step_size : ℕ) : List (List ℕ) :=
  let base := (List.range num_windows).map fun i =>
    _enumerate_step_points 0 (img_size.getD i 0) win_size step_size
  if hasAux then
    base ++ [_enumerate_step_points 0 (img_size.getD num_windows 0) 1 1]
  else base

/-- Model of the coordinate-row construction in `generate_grid_coordinates`:
starting from a row of `ncols` zeros (`np.zeros`), write for every windowed
dimension `i` the start into column `i` and the start plus the window size
into column `i + num_location_types`, and (when an auxiliary dimension
exists) write its raw index into column `num_windows`. -/
def makeCoordinate (num_windows num_location_types ncols : ℕ) (hasAux : Bool)
    (win_size : ℕ) (tuple : List ℕ) : List ℕ :=
  let row := (List.range num_windows).foldl
    (fun row i => (row.set i (tuple.getD i 0)).set
      (i + num_location_types) (tuple.getD i 0 + win_size))
    (List.replicate ncols 0)
  if hasAux then row.set num_windows (tuple.getD num_windows 0) else row

/-- Pure-ℕ body of `generate_grid_coordinates` once the floor/ceil of the
spatial rank have been taken: the meshgrid cross product of the
per-dimension step points, each combination laid out as one coordinate. -/
def generate_core (num_windows num_location_types ncols : ℕ) (hasAux : Bool)
    (img_size : List ℕ) (win_size step_size : ℕ) : List (List ℕ) :=
  (meshgridColumns (steps_along_each num_windows hasAux img_size win_size step_size)).map
    (makeCoordinate num_windows num_location_types ncols hasAux win_size)

/-- Result of `generate_grid_coordinates`: the Python function returns
`None` when `grid_size <= 0`, raises `AssertionError` when some windowed
dimension is smaller than the window, and otherwise returns the coordinate
array. -/
inductive GenResult where
  | noCoordinates : GenResult
  | assertionError : GenResult
  | coords : List (List ℕ) → GenResult
deriving DecidableEq

/-- Model of `generate_grid_coordinates(spatial_rank, img_size, win_size,
grid_size)`.  `num_windows = int(np.floor(spatial_rank))`,
`num_location_types = int(np.ceil(spatial_rank))`; the row width is
`spatial_rank * 2` truncated to an integer; the auxiliary dimension exists
when `num_windows < spatial_rank`. -/
def generate_grid_coordinates (spatial_rank : ℚ) (img_size : List ℕ)
    (win_size : ℕ) (grid_size : ℤ) : GenResult :=
  if grid_size ≤ 0 then GenResult.noCoordinates
  else
    let num_windows := (⌊spatial_rank⌋).toNat
    let num_location_types := (⌈spatial_rank⌉).toNat
    if ∀ d ∈ img_size.take num_windows, win_size ≤ d then
      GenResult.coords
        (generate_core num_windows num_location_types (⌊2 * spatial_rank⌋).toNat
          (decide ((num_windows : ℚ) < spatial_rank)) img_size win_size grid_size.toNat)
    else GenResult.assertionError

/-- Model of the padding computation in `GridSampler.layer_op`:
`extra_patches = batch_size - n_patches % batch_size if (n_patches %
batch_size) != 0 else 0`. -/
def extra_patches (n_patches batch_size : ℕ) : ℕ :=
  if n_patches % batch_size ≠ 0 then batch_size - n_patches % batch_size else 0

/-- Model of `extend_n_patches = n_patches + extra_patches`. -/
def extend_n_patches (n_patches batch_size : ℕ) : ℕ :=
  n_patches + extra_patches n_patches batch_size

/-- One `self.patch.set_data(idx, loc, ...)`-and-yield event of
`GridSampler.layer_op`, keeping the volume id and the coordinate passed to
the patch sink (the image/segmentation/weight-map payloads are opaque
external data). -/
structure PatchEvent where
  volumeId : ℕ
  coordinate : List ℕ
deriving DecidableEq

/-- Model of the per-volume part of `GridSampler.layer_op`: run the
coordinate generator, compute the padded sample count, and emit
`locations[i % n_patches]` for `i` in `[0, extend_n_patches)`.  `none`
models a raised exception: an `AssertionError` from the generator, or the
`AttributeError` from taking `locations.shape[0]` when the generator
returned `None`. -/
def layer_op_volume (idx : ℕ) (spatial_rank : ℚ) (img_size : List ℕ)
    (win_size : ℕ) (grid_size : ℤ) (batch_size : ℕ) : Option (List PatchEvent) :=
  match generate_grid_coordinates spatial_rank img_size win_size grid_size with
  | GenResult.coords locations =>
    some ((List.range (extend_n_patches locations.length batch_size)).map
      fun i => { volumeId := idx,
                 coordinate := locations.getD (i % locations.length) [] })
  | _ => none

theorem length_tupleList (ls : List (List ℕ)) :
    (tupleList ls).length = (ls.map List.length).prod := by
  induction ls with
  | nil => simp [tupleList]
  | cons l ls ih =>
    have h : ∀ l2 : List ℕ,
        (l2.flatMap fun x => (tupleList ls).map fun t => x :: t).length
          = l2.length * (tupleList ls).length := by
      intro l2
      induction l2 with
      | nil => simp
      | cons a l2 ih2 => simp [List.flatMap_cons, ih2, Nat.succ_mul, Nat.add_comm]
    rw [tupleList, h l, ih]
    simp

theorem mem_tupleList (ls : List (List ℕ)) (t : List ℕ) (ht : t ∈ tupleList ls) :
    t.length = ls.length ∧ ∀ i, i < ls.length → t.getD i 0 ∈ ls.getD i [] := by
  induction ls generalizing t with
  | nil =>
    rw [tupleList, List.mem_singleton] at ht
    subst ht
    simp
  | cons l ls ih =>
    rw [tupleList, List.mem_flatMap] at ht
    obtain ⟨x, hx, ht⟩ := ht
    obtain ⟨u, hu, rfl⟩ := List.mem_map.mp ht
    obtain ⟨hlen, hmem⟩ := ih u hu
    refine ⟨by simp [hlen], ?_⟩
    intro i hi
    cases i with
    | zero => simpa using hx
    | succ i =>
      simp only [List.getD_cons_succ]
      exact hmem i (by simpa using hi)

theorem length_swap01 {α : Type} (l : List α) : (swap01 l).length = l.length := by
  match l with
  | [] => rfl
  | [x] => rfl
  | x :: y :: rest => rfl

theorem swap01_perm {α : Type} (l : List α) : (swap01 l).Perm l := by
  match l with
  | [] => exact List.Perm.refl _
  | [x] => exact List.Perm.refl _
  | x :: y :: rest => exact List.Perm.swap x y rest

theorem length_meshgridColumns (ls : List (List ℕ)) :
    (meshgridColumns ls).length = (ls.map List.length).prod := by
  rw [meshgridColumns, List.length_map, length_tupleList]
  exact List.Perm.prod_eq ((swap01_perm ls).map List.length)

theorem mem_meshgridColumns (ls : List (List ℕ)) (t : List ℕ)
    (ht : t ∈ meshgridColumns ls) :
    t.length = ls.length ∧ ∀ i, i < ls.length → t.getD i 0 ∈ ls.getD i [] := by
  obtain ⟨u, hu, rfl⟩ := List.mem_map.mp ht
  obtain ⟨hlen, hmem⟩ := mem_tupleList (swap01 ls) u hu
  rw [length_swap01] at hlen
  rcases ls with _ | ⟨a, _ | ⟨b, r⟩⟩
  · have hu0 : u = [] := List.eq_nil_of_length_eq_zero (by simpa using hlen)
    subst hu0
    simp [swap01]
  · simp only [List.length_singleton] at hlen
    obtain ⟨x, rfl⟩ := List.length_eq_one.mp hlen
    refine ⟨rfl, ?_⟩
    intro i hi
    have hi1 : i = 0 := by simpa using hi
    subst hi1
    simpa [swap01] using hmem 0 (by simp [swap01])
  · rcases u with _ | ⟨y, _ | ⟨x, v⟩⟩
    · simp at hlen
    · simp at hlen
    · have hlen2 : v.length = r.length := by simpa using hlen
      constructor
      · simp [swap01, hlen2]
      · intro i hi
        match i with
        | 0 => simpa [swap01] using hmem 1 (by simp [swap01])
        | 1 => simpa [swap01] using hmem 0 (by simp [swap01])
        | Nat.succ (Nat.succ i) =>
          have hb : i + 2 < (swap01 (a :: b :: r)).length := by
            simp only [swap01, List.length_cons]
            simpa using hi
          have := hmem (i + 2) hb
          simpa [swap01] using this

theorem getD_set_ne (l : List ℕ) (i j a d : ℕ) (h : i ≠ j) :
    (l.set i a).getD j d = l.getD j d := by
  rw [List.getD_eq_getElem?_getD, List.getD_eq_getElem?_getD, List.getElem?_set_ne h]

theorem getD_set_self (l : List ℕ) (i a d : ℕ) (h : i < l.length) :
    (l.set i a).getD i d = a := by
  rw [List.getD_eq_getElem?_getD, List.getElem?_set_self h]
  rfl

/-- Effect of the start/end-column writing loop of
`generate_grid_coordinates` on a row: after processing windowed dimensions
`0 .. n-1`, column `i` holds the start and column `i + num_location_types`
holds the start plus the window size, for every `i < n`. -/
theorem foldl_setPairs (tuple : List ℕ) (num_location_types win_size : ℕ)
    (n : ℕ) (row : List ℕ) (hn : n ≤ num_location_types) :
    ((List.range n).foldl
        (fun row i => (row.set i (tuple.getD i 0)).set
          (i + num_location_types) (tuple.getD i 0 + win_size)) row).length = row.length ∧
    (∀ i, i < n → i < row.length →
      ((List.range n).foldl
        (fun row i => (row.set i (tuple.getD i 0)).set
          (i + num_location_types) (tuple.getD i 0 + win_size)) row).getD i 0 = tuple.getD i 0) ∧
    (∀ i, i < n → i + num_location_types < row.length →
      ((List.range n).foldl
        (fun row i => (row.set i (tuple.getD i 0)).set
          (i + num_location_types) (tuple.getD i 0 + win_size)) row).getD
            (i + num_location_types) 0 = tuple.getD i 0 + win_size) := by
  induction n with
  | zero => simp
  | succ n ih =>
    obtain ⟨ihlen, ihstart, ihend⟩ := ih (by omega)
    rw [List.range_succ, List.foldl_append, List.foldl_cons, List.foldl_nil]
    set prev := (List.range n).foldl
      (fun row i => (row.set i (tuple.getD i 0)).set
        (i + num_location_types) (tuple.getD i 0 + win_size)) row with hprev
    have hprevlen : prev.length = row.length := ihlen
    refine ⟨by simp [hprevlen], ?_, ?_⟩
    · intro i hi hirow
      by_cases hin : i = n
      · subst hin
        rw [getD_set_ne _ _ _ _ _ (by omega)]
        rw [getD_set_self]
        simp [hprevlen]
        omega
      · rw [getD_set_ne _ _ _ _ _ (by omega), getD_set_ne _ _ _ _ _ (by omega)]
        exact ihstart i (by omega) hirow
    · intro i hi hirow
      by_cases hin : i = n
      · subst hin
        rw [getD_set_self]
        simp [hprevlen]
        omega
      · rw [getD_set_ne _ _ _ _ _ (by omega), getD_set_ne _ _ _ _ _ (by omega)]
        exact ihend i (by omega) hirow

/-- Layout of one coordinate row built by `makeCoordinate`: the row has
`ncols` columns; column `i` holds the `i`-th tuple entry and column
`i + num_location_types` holds it plus the window size for every windowed
dimension `i`; with an auxiliary dimension, column `num_windows` holds the
raw auxiliary tuple entry. -/
theorem makeCoordinate_spec (num_windows num_location_types ncols : ℕ)
    (hasAux : Bool) (win_size : ℕ) (tuple : List ℕ)
    (h1 : num_windows ≤ num_location_types)
    (h2 : ncols = num_windows + num_location_types)
    (h3 : hasAux = true → num_windows < num_location_types) :
    (makeCoordinate num_windows num_location_types ncols hasAux win_size tuple).length = ncols ∧
    (∀ i, i < num_windows →
      (makeCoordinate num_windows num_location_types ncols hasAux win_size tuple).getD i 0
        = tuple.getD i 0 ∧
      (makeCoordinate num_windows num_location_types ncols hasAux win_size tuple).getD
          (i + num_location_types) 0 = tuple.getD i 0 + win_size) ∧
    (hasAux = true →
      (makeCoordinate num_windows num_location_types ncols hasAux win_size tuple).getD
          num_windows 0 = tuple.getD num_windows 0) := by
  obtain ⟨flen, fstart, fend⟩ := foldl_setPairs tuple num_location_types win_size
    num_windows (List.replicate ncols 0) h1
  rw [List.length_replicate] at flen fstart fend
  rw [makeCoordinate]
  cases hasAux with
  | false =>
    simp only [Bool.false_eq_true, if_false]
    refine ⟨flen, ?_, by intro h; cases h⟩
    intro i hi
    exact ⟨fstart i hi (by omega), fend i hi (by omega)⟩
  | true =>
    have haux := h3 rfl
    simp only [if_true]
    refine ⟨by rw [List.length_set]; exact flen, ?_, ?_⟩
    · intro i hi
      constructor
      · rw [getD_set_ne _ _ _ _ _ (by omega)]
        exact fstart i hi (by omega)
      · rw [getD_set_ne _ _ _ _ _ (by omega)]
        exact fend i hi (by omega)
    · intro _
      rw [getD_set_self]
      rw [flen]
      omega

/-- Unfolding of `generate_grid_coordinates` on a positive grid size when
the window-size assertion passes. -/
theorem generate_grid_coordinates_pos (spatial_rank : ℚ) (img_size : List ℕ)
    (win_size : ℕ) (grid_size : ℤ) (hg : 0 < grid_size)
    (hassert : ∀ d ∈ img_size.take (⌊spatial_rank⌋).toNat, win_size ≤ d) :
    generate_grid_coordinates spatial_rank img_size win_size grid_size =
      GenResult.coords
        (generate_core (⌊spatial_rank⌋).toNat (⌈spatial_rank⌉).toNat
          (⌊2 * spatial_rank⌋).toNat
          (decide (((⌊spatial_rank⌋).toNat : ℚ) < spatial_rank))
          img_size win_size grid_size.toNat) := by
  rw [generate_grid_coordinates, if_neg (by omega : ¬ grid_size ≤ 0), if_pos hassert]

theorem intRank_floor_toNat (k : ℕ) : (⌊(k : ℚ)⌋).toNat = k := by
  simp

theorem intRank_ceil_toNat (k : ℕ) : (⌈(k : ℚ)⌉).toNat = k := by
  simp

theorem intRank_two_mul_floor_toNat (k : ℕ) : (⌊2 * (k : ℚ)⌋).toNat = 2 * k := by
  have h : 2 * (k : ℚ) = ((2 * k : ℕ) : ℚ) := by push_cast; ring
  rw [h, Int.floor_natCast]
  omega

theorem intRank_noAux (k : ℕ) : decide ((k : ℚ) < (k : ℚ)) = false :=
  decide_eq_false (lt_irrefl _)

theorem halfRank_floor_toNat (k : ℕ) : (⌊(k : ℚ) + 1/2⌋).toNat = k := by
  have h : ⌊(k : ℚ) + 1/2⌋ = (k : ℤ) := by
    rw [Int.floor_eq_iff]
    constructor
    · push_cast
      linarith
    · push_cast
      linarith
  rw [h]
  simp

theorem halfRank_ceil_toNat (k : ℕ) : (⌈(k : ℚ) + 1/2⌉).toNat = k + 1 := by
  have h : ⌈(k : ℚ) + 1/2⌉ = ((k : ℤ) + 1) := by
    rw [Int.ceil_eq_iff]
    constructor
    · push_cast
      linarith
    · push_cast
      linarith
  rw [h]
  simp

theorem halfRank_two_mul_floor_toNat (k : ℕ) :
    (⌊2 * ((k : ℚ) + 1/2)⌋).toNat = 2 * k + 1 := by
  have h : 2 * ((k : ℚ) + 1/2) = ((2 * k + 1 : ℕ) : ℚ) := by push_cast; ring
  rw [h, Int.floor_natCast]
  omega

theorem halfRank_hasAux (k : ℕ) : decide ((k : ℚ) < (k : ℚ) + 1/2) = true :=
  decide_eq_true (by linarith)

/-- Unfolding of `generate_grid_coordinates` at an integer spatial rank `k`:
`num_windows = num_location_types = k`, `2 * k` columns, no auxiliary
dimension. -/
theorem generate_int_rank (k : ℕ) (img_size : List ℕ) (win_size : ℕ)
    (grid_size : ℤ) (hg : 0 < grid_size)
    (hassert : ∀ d ∈ img_size.take k, win_size ≤ d) :
    generate_grid_coordinates (k : ℚ) img_size win_size grid_size =
      GenResult.coords
        (generate_core k k (2 * k) false img_size win_size grid_size.toNat) := by
  rw [generate_grid_coordinates_pos (k : ℚ) img_size win_size grid_size hg
    (by rw [intRank_floor_toNat]; exact hassert)]
  rw [intRank_floor_toNat, intRank_ceil_toNat, intRank_two_mul_floor_toNat,
    intRank_noAux]

/-- Unfolding of `generate_grid_coordinates` at a half-integer spatial rank
`k + 1/2`: `num_windows = k`, `num_location_types = k + 1`, `2 * k + 1`
columns, with an auxiliary dimension. -/
theorem generate_half_rank (k : ℕ) (img_size : List ℕ) (win_size : ℕ)
    (grid_size : ℤ) (hg : 0 < grid_size)
    (hassert : ∀ d ∈ img_size.take k, win_size ≤ d) :
    generate_grid_coordinates ((k : ℚ) + 1/2) img_size win_size grid_size =
      GenResult.coords
        (generate_core k (k + 1) (2 * k + 1) true img_size win_size grid_size.toNat) := by
  rw [generate_grid_coordinates_pos ((k : ℚ) + 1/2) img_size win_size grid_size hg
    (by rw [halfRank_floor_toNat]; exact hassert)]
  rw [halfRank_floor_toNat, halfRank_ceil_toNat, halfRank_two_mul_floor_toNat,
    halfRank_hasAux]

/-- C2: the step enumerator returns exactly the ascending, deduplicated
sequence of the points recorded by the loop (`start, start + stepSize, ...`
while `point + windowSize <= end`) together with the unconditionally added
point `max(end - windowSize, 0)`; in particular the returned set contains
`max(end - windowSize, 0)`.  (Stated for positive step sizes: with a zero
step size the source loop does not terminate.) -/
theorem enumerate_step_points_spec (starting ending win_size step_size : ℕ)
    (hstep : 0 < step_size) :
    List.Sorted (· < ·) (_enumerate_step_points starting ending win_size step_size) ∧
    (_enumerate_step_points starting ending win_size step_size).Nodup ∧
    (∀ c, c ∈ _enumerate_step_points starting ending win_size step_size ↔
      c ∈ stepPointsLoop starting ending win_size step_size ∨
        c = max (ending - win_size) 0) ∧
    (∀ c, c ∈ stepPointsLoop starting ending win_size step_size ↔
      (∃ j, c = starting + j * step_size) ∧ c + win_size ≤ ending) ∧
    max (ending - win_size) 0 ∈ _enumerate_step_points starting ending win_size step_size :=
  ⟨sorted_npUnique _, nodup_npUnique _,
    fun c => mem_enumerate_step_points starting ending win_size step_size c,
    fun c => mem_stepPointsLoop starting ending win_size step_size c hstep,
    boundary_mem_enumerate starting ending win_size step_size⟩

theorem enumerate_step_points_spec_witness :
    0 < 5 ∧
    (List.Sorted (· < ·) (_enumerate_step_points 0 10 7 5) ∧
    (_enumerate_step_points 0 10 7 5).Nodup ∧
    (∀ c, c ∈ _enumerate_step_points 0 10 7 5 ↔
      c ∈ stepPointsLoop 0 10 7 5 ∨ c = max (10 - 7) 0) ∧
    (∀ c, c ∈ stepPointsLoop 0 10 7 5 ↔
      (∃ j, c = 0 + j * 5) ∧ c + 7 ≤ 10) ∧
    max (10 - 7) 0 ∈ _enumerate_step_points 0 10 7 5) :=
  ⟨by decide, enumerate_step_points_spec 0 10 7 5 (by decide)⟩

/-- C3: for `n` raw coordinates and batch size `b >= 1` the padded total
`extend_n_patches n b = n + extra` satisfies `total % b = 0`, `total >= n`,
and `total = n` exactly when `n % b = 0`. -/
theorem batch_padding_invariant (n_patches batch_size : ℕ) (hb : 1 ≤ batch_size) :
    extend_n_patches n_patches batch_size % batch_size = 0 ∧
    n_patches ≤ extend_n_patches n_patches batch_size ∧
    (extend_n_patches n_patches batch_size = n_patches ↔ n_patches % batch_size = 0) := by
  rw [extend_n_patches, extra_patches]
  have hdm := Nat.div_add_mod n_patches batch_size
  have hmlt : n_patches % batch_size < batch_size := Nat.mod_lt _ hb
  by_cases h : n_patches % batch_size = 0
  · rw [if_neg (by simp [h])]
    exact ⟨by rw [Nat.add_zero]; exact h, Nat.le_add_right _ _, by simp [h]⟩
  · rw [if_pos h]
    have key : n_patches + (batch_size - n_patches % batch_size) =
        batch_size * (n_patches / batch_size + 1) := by
      rw [Nat.mul_add, Nat.mul_one]
      generalize hqt : batch_size * (n_patches / batch_size) = t at hdm ⊢
      generalize hrt : n_patches % batch_size = r at hdm hmlt ⊢
      omega
    refine ⟨by rw [key]; exact Nat.mul_mod_right _ _, Nat.le_add_right _ _, ?_⟩
    constructor
    · intro heq
      exfalso
      generalize hrt : n_patches % batch_size = r at heq hmlt h
      omega
    · intro h0
      exact absurd h0 h

theorem batch_padding_invariant_witness :
    1 ≤ 3 ∧
    (extend_n_patches 5 3 % 3 = 0 ∧ 5 ≤ extend_n_patches 5 3 ∧
      (extend_n_patches 5 3 = 5 ↔ 5 % 3 = 0)) :=
  ⟨by decide, batch_padding_invariant 5 3 (by decide)⟩

/-- C7: a non-positive grid size makes the coordinate generator return
"no coordinates" (the Python `None`), not an error, regardless of the
spatial rank, the extents and the window size. -/
theorem disabled_sampling_no_coordinates (spatial_rank : ℚ) (img_size : List ℕ)
    (win_size : ℕ) (grid_size : ℤ) (hg : grid_size ≤ 0) :
    generate_grid_coordinates spatial_rank img_size win_size grid_size =
      GenResult.noCoordinates := by
  rw [generate_grid_coordinates, if_pos hg]

theorem disabled_sampling_no_coordinates_witness :
    generate_grid_coordinates ((5 : ℚ) / 2) [10, 10, 3] 4 (-2) =
      GenResult.noCoordinates :=
  disabled_sampling_no_coordinates ((5 : ℚ) / 2) [10, 10, 3] 4 (-2) (by decide)

/-- C8: with a positive grid size, a windowed dimension whose extent is
smaller than the window size makes `generate_grid_coordinates` fail loudly
with the fatal assertion (modelled as `GenResult.assertionError`); no
coordinate set is returned and the input is not silently corrected. -/
theorem window_exceeds_extent_assertion (spatial_rank : ℚ) (img_size : List ℕ)
    (win_size : ℕ) (grid_size : ℤ) (i : ℕ) (hg : 0 < grid_size)
    (hi : i < (⌊spatial_rank⌋).toNat) (hil : i < img_size.length)
    (hlt : img_size.getD i 0 < win_size) :
    generate_grid_coordinates spatial_rank img_size win_size grid_size =
      GenResult.assertionError := by
  rw [generate_grid_coordinates, if_neg (by omega)]
  rw [if_neg]
  intro hall
  have hlen : i < (img_size.take (⌊spatial_rank⌋).toNat).length := by
    rw [List.length_take]
    omega
  have htake : (img_size.take (⌊spatial_rank⌋).toNat)[i] = img_size[i] :=
    List.getElem_take img_size
  have hd : img_size.getD i 0 = img_size[i] := List.getD_eq_getElem img_size 0 hil
  have hmem : img_size.getD i 0 ∈ img_size.take (⌊spatial_rank⌋).toNat := by
    rw [hd, ← htake]
    exact List.getElem_mem hlen
  have := hall _ hmem
  omega

theorem window_exceeds_extent_assertion_witness :
    generate_grid_coordinates ((3 : ℕ) : ℚ) [5, 1, 6] 4 1 =
      GenResult.assertionError :=
  window_exceeds_extent_assertion ((3 : ℕ) : ℚ) [5, 1, 6] 4 1 1 (by decide)
    (by rw [intRank_floor_toNat]; decide) (by decide) (by decide)

/-- C10: the grid sampler does not handle the "no coordinates" result: with
`grid_size <= 0` the per-volume body of `GridSampler.layer_op` fails (the
`None` returned by the generator is dereferenced for its `.shape`),
modelled as `none`, instead of emitting zero samples and moving on. -/
theorem layer_op_crashes_on_disabled_grid (idx : ℕ) (spatial_rank : ℚ)
    (img_size : List ℕ) (win_size : ℕ) (grid_size : ℤ) (batch_size : ℕ)
    (hg : grid_size ≤ 0) :
    layer_op_volume idx spatial_rank img_size win_size grid_size batch_size = none := by
  rw [layer_op_volume, generate_grid_coordinates, if_pos hg]

theorem layer_op_crashes_on_disabled_grid_witness :
    layer_op_volume 0 ((5 : ℚ) / 2) [10, 10, 3] 4 0 2 = none :=
  layer_op_crashes_on_disabled_grid 0 ((5 : ℚ) / 2) [10, 10, 3] 4 0 2 (by decide)

theorem getD_map_range {α : Type} (f : ℕ → α) (n i : ℕ) (h : i < n) (d : α) :
    ((List.range n).map f).getD i d = f i := by
  rw [List.getD_eq_getElem?_getD, List.getElem?_map, List.getElem?_range h]
  rfl

theorem length_generate_core (num_windows num_location_types ncols : ℕ)
    (hasAux : Bool) (img_size : List ℕ) (win_size step_size : ℕ) :
    (generate_core num_windows num_location_types ncols hasAux img_size win_size step_size).length =
      ((steps_along_each num_windows hasAux img_size win_size step_size).map
        List.length).prod := by
  rw [generate_core, List.length_map, length_meshgridColumns]

theorem mem_steps_along_each (num_windows : ℕ) (hasAux : Bool) (img_size : List ℕ)
    (win_size step_size : ℕ) (steps : List ℕ)
    (hmem : steps ∈ steps_along_each num_windows hasAux img_size win_size step_size) :
    ∃ ending win step, steps = _enumerate_step_points 0 ending win step := by
  rw [steps_along_each] at hmem
  cases hasAux with
  | false =>
    simp only [Bool.false_eq_true, if_false, List.mem_map] at hmem
    obtain ⟨i, _, rfl⟩ := hmem
    exact ⟨_, _, _, rfl⟩
  | true =>
    simp only [if_true, List.mem_append, List.mem_map, List.mem_singleton] at hmem
    rcases hmem with ⟨i, _, rfl⟩ | rfl
    · exact ⟨_, _, _, rfl⟩
    · exact ⟨_, _, _, rfl⟩

/-- C4: whenever the generator returned a coordinate list `locations` for a
volume, the emission loop of `layer_op` passes the coordinate
`locations[i % n]` to the patch sink at step `i`, for every
`i < extend_n_patches` — in particular coordinates are reused cyclically
for `i >= n` to fill the last partial batch. -/
theorem wraparound_emission (idx : ℕ) (spatial_rank : ℚ) (img_size : List ℕ)
    (win_size : ℕ) (grid_size : ℤ) (batch_size : ℕ) (locations : List (List ℕ))
    (i : ℕ)
    (hgen : generate_grid_coordinates spatial_rank img_size win_size grid_size =
      GenResult.coords locations)
    (hi : i < extend_n_patches locations.length batch_size) :
    i % locations.length < locations.length ∧
    ∃ events, layer_op_volume idx spatial_rank img_size win_size grid_size batch_size =
        some events ∧
      events.getD i ⟨idx, []⟩ =
        ⟨idx, locations.getD (i % locations.length) []⟩ := by
  have hn : 0 < locations.length := by
    by_contra h0
    have h00 : locations.length = 0 := by omega
    rw [h00, extend_n_patches, extra_patches] at hi
    simp at hi
  refine ⟨Nat.mod_lt _ hn, ?_⟩
  rw [layer_op_volume, hgen]
  exact ⟨_, rfl, getD_map_range _ _ _ hi _⟩

theorem wraparound_emission_witness :
    3 % (generate_core 1 1 (2 * 1) false [2] 1 1).length <
      (generate_core 1 1 (2 * 1) false [2] 1 1).length ∧
    ∃ events, layer_op_volume 7 ((1 : ℕ) : ℚ) [2] 1 (1 : ℤ) 4 = some events ∧
      events.getD 3 ⟨7, []⟩ =
        ⟨7, (generate_core 1 1 (2 * 1) false [2] 1 1).getD
          (3 % (generate_core 1 1 (2 * 1) false [2] 1 1).length) []⟩ :=
  wraparound_emission 7 ((1 : ℕ) : ℚ) [2] 1 1 4
    (generate_core 1 1 (2 * 1) false [2] 1 1) 3
    (generate_int_rank 1 [2] 1 1 (by decide) (by decide)) (by decide)

/-- C6: for a valid call (integer or half-integer positive spatial rank,
positive grid size, extents covering all coordinate dimensions, every
windowed extent at least the window size), the generator returns a
coordinate list whose length is the product of the per-dimension step-point
counts, the auxiliary dimension included when the rank is fractional. -/
theorem cross_product_size (k : ℕ) (spatial_rank : ℚ) (img_size : List ℕ)
    (win_size : ℕ) (grid_size : ℤ)
    (hsr : spatial_rank = (k : ℚ) ∨ spatial_rank = (k : ℚ) + 1/2)
    (hg : 0 < grid_size)
    (hlen : (⌈spatial_rank⌉).toNat ≤ img_size.length)
    (hassert : ∀ d ∈ img_size.take k, win_size ≤ d) :
    ∃ l, generate_grid_coordinates spatial_rank img_size win_size grid_size =
        GenResult.coords l ∧
      l.length = ((steps_along_each k (decide ((k : ℚ) < spatial_rank)) img_size
        win_size grid_size.toNat).map List.length).prod := by
  rcases hsr with rfl | rfl
  · rw [generate_int_rank k _ _ _ hg hassert, intRank_noAux]
    exact ⟨_, rfl, length_generate_core _ _ _ _ _ _ _⟩
  · rw [generate_half_rank k _ _ _ hg hassert, halfRank_hasAux]
    exact ⟨_, rfl, length_generate_core _ _ _ _ _ _ _⟩

theorem cross_product_size_witness :
    ∃ l, generate_grid_coordinates (((2 : ℕ) : ℚ) + 1/2) [10, 10, 3] 4 3 =
        GenResult.coords l ∧
      l.length = ((steps_along_each 2 (decide (((2 : ℕ) : ℚ) < ((2 : ℕ) : ℚ) + 1/2))
        [10, 10, 3] 4 (3 : ℤ).toNat).map List.length).prod :=
  cross_product_size 2 (((2 : ℕ) : ℚ) + 1/2) [10, 10, 3] 4 3 (Or.inr rfl)
    (by decide) (by rw [halfRank_ceil_toNat]; decide) (by decide)

/-- C9: for a valid call with a positive grid size, every per-dimension
step-point list is non-empty (the forced boundary point is always
appended), and therefore the generator returns at least one coordinate, so
the `i % n_patches` indexing of the emission loop is well defined. -/
theorem step_point_sets_and_coords_nonempty (k : ℕ) (spatial_rank : ℚ)
    (img_size : List ℕ) (win_size : ℕ) (grid_size : ℤ)
    (hsr : spatial_rank = (k : ℚ) ∨ spatial_rank = (k : ℚ) + 1/2)
    (hg : 0 < grid_size)
    (hlen : (⌈spatial_rank⌉).toNat ≤ img_size.length)
    (hassert : ∀ d ∈ img_size.take k, win_size ≤ d) :
    (∀ steps ∈ steps_along_each k (decide ((k : ℚ) < spatial_rank)) img_size
      win_size grid_size.toNat, steps ≠ []) ∧
    ∃ l, generate_grid_coordinates spatial_rank img_size win_size grid_size =
        GenResult.coords l ∧ 1 ≤ l.length := by
  have hne : ∀ (aux : Bool) (steps : List ℕ),
      steps ∈ steps_along_each k aux img_size win_size grid_size.toNat →
        steps ≠ [] := by
    intro aux steps hmem
    obtain ⟨e, w2, s2, rfl⟩ := mem_steps_along_each k aux img_size win_size
      grid_size.toNat steps hmem
    exact enumerate_ne_nil 0 e w2 s2
  have hprod : ∀ (aux : Bool),
      1 ≤ ((steps_along_each k aux img_size win_size grid_size.toNat).map
        List.length).prod := by
    intro aux
    have hpos : 0 < ((steps_along_each k aux img_size win_size grid_size.toNat).map
        List.length).prod := by
      apply List.prod_pos
      intro x hx
      obtain ⟨steps, hsteps, rfl⟩ := List.mem_map.mp hx
      exact List.length_pos.mpr (hne aux steps hsteps)
    omega
  rcases hsr with rfl | rfl
  · rw [generate_int_rank k _ _ _ hg hassert, intRank_noAux]
    refine ⟨hne false, _, rfl, ?_⟩
    rw [length_generate_core]
    exact hprod false
  · rw [generate_half_rank k _ _ _ hg hassert, halfRank_hasAux]
    refine ⟨hne true, _, rfl, ?_⟩
    rw [length_generate_core]
    exact hprod true

theorem step_point_sets_and_coords_nonempty_witness :
    (∀ steps ∈ steps_along_each 2 (decide (((2 : ℕ) : ℚ) < ((2 : ℕ) : ℚ) + 1/2))
      [10, 10, 3] 4 (3 : ℤ).toNat, steps ≠ []) ∧
    ∃ l, generate_grid_coordinates (((2 : ℕ) : ℚ) + 1/2) [10, 10, 3] 4 3 =
        GenResult.coords l ∧ 1 ≤ l.length :=
  step_point_sets_and_coords_nonempty 2 (((2 : ℕ) : ℚ) + 1/2) [10, 10, 3] 4 3
    (Or.inr rfl) (by decide) (by rw [halfRank_ceil_toNat]; decide) (by decide)

/-- C1 counterexample: with `extent = 3 >= windowSize = 1` and
`gridSize = 2 > 0` — inputs the claim quantifies over — the generated step
points are `{0, 2}` and the position `1 < 3` lies in no window
`[c, c + 1)`, so the union of the windows is not `[0, extent)`. -/
theorem grid_coverage_counterexample :
    1 ≤ 3 ∧ 0 < 2 ∧ 1 < 3 ∧
    ¬ ∃ c ∈ _enumerate_step_points 0 3 1 2, c ≤ 1 ∧ 1 < c + 1 := by
  decide

/-- C1 (amended): for every extent at least the window size and every grid
size with `0 < gridSize <= windowSize`, the union of the half-open windows
`[c, c + windowSize)` over the generated step points equals `[0, extent)`
exactly — no gaps and no points outside the range. -/
theorem grid_coverage_of_grid_le_window (extent win_size grid_size : ℕ)
    (hwe : win_size ≤ extent) (hg : 0 < grid_size) (hgw : grid_size ≤ win_size) :
    ∀ x, (∃ c ∈ _enumerate_step_points 0 extent win_size grid_size,
      c ≤ x ∧ x < c + win_size) ↔ x < extent := by
  intro x
  constructor
  · rintro ⟨c, hc, hcx, hxc⟩
    have hcw : c + win_size ≤ extent := by
      rcases (mem_enumerate_step_points 0 extent win_size grid_size c).mp hc with h | h
      · exact ((mem_stepPointsLoop 0 extent win_size grid_size c hg).mp h).2
      · omega
    omega
  · intro hx
    obtain ⟨c0, hj, hc0le, hx2⟩ :
        ∃ c0, (∃ j, c0 = 0 + j * grid_size) ∧ c0 ≤ x ∧
          c0 + x % grid_size = x := by
      refine ⟨x / grid_size * grid_size, ⟨x / grid_size, by ring⟩,
        Nat.div_mul_le_self x grid_size, ?_⟩
      rw [Nat.mul_comm]
      exact Nat.div_add_mod x grid_size
    have hxmod : x % grid_size < grid_size := Nat.mod_lt _ hg
    generalize hrdef : x % grid_size = r at hx2 hxmod
    by_cases hcase : c0 + win_size ≤ extent
    · refine ⟨c0, ?_, hc0le, by omega⟩
      exact (mem_enumerate_step_points 0 extent win_size grid_size c0).mpr
        (Or.inl ((mem_stepPointsLoop 0 extent win_size grid_size c0 hg).mpr
          ⟨hj, hcase⟩))
    · refine ⟨extent - win_size, ?_, by omega, by omega⟩
      have hb := boundary_mem_enumerate 0 extent win_size grid_size
      rwa [max_eq_left (Nat.zero_le _)] at hb

theorem grid_coverage_of_grid_le_window_witness :
    4 ≤ 10 ∧ 0 < 3 ∧ 3 ≤ 4 ∧
    ∀ x, (∃ c ∈ _enumerate_step_points 0 10 4 3, c ≤ x ∧ x < c + 4) ↔ x < 10 :=
  ⟨by decide, by decide, by decide,
    grid_coverage_of_grid_le_window 10 4 3 (by decide) (by decide) (by decide)⟩

theorem getD_append_length {α : Type} (l1 l2 : List α) (d : α) :
    (l1 ++ l2).getD l1.length d = l2.getD 0 d := by
  rw [List.getD_eq_getElem?_getD, List.getD_eq_getElem?_getD,
    List.getElem?_append_right (le_refl _)]
  simp

theorem steps_getD_lt (num_windows : ℕ) (hasAux : Bool) (img_size : List ℕ)
    (win_size step_size : ℕ) (i : ℕ) (hi : i < num_windows) :
    (steps_along_each num_windows hasAux img_size win_size step_size).getD i [] =
      _enumerate_step_points 0 (img_size.getD i 0) win_size step_size := by
  rw [steps_along_each]
  cases hasAux with
  | false =>
    simp only [Bool.false_eq_true, if_false]
    exact getD_map_range _ _ _ hi _
  | true =>
    simp only [if_true]
    rw [List.getD_append _ _ _ _ (by simpa using hi)]
    exact getD_map_range _ _ _ hi _

theorem steps_getD_aux (num_windows : ℕ) (img_size : List ℕ)
    (win_size step_size : ℕ) :
    (steps_along_each num_windows true img_size win_size step_size).getD
        num_windows [] =
      _enumerate_step_points 0 (img_size.getD num_windows 0) 1 1 := by
  rw [steps_along_each]
  simp only [if_true]
  have h := getD_append_length
    ((List.range num_windows).map fun i =>
      _enumerate_step_points 0 (img_size.getD i 0) win_size step_size)
    [_enumerate_step_points 0 (img_size.getD num_windows 0) 1 1] []
  rw [List.length_map, List.length_range] at h
  rw [h]
  rfl

theorem length_steps_along_each (num_windows : ℕ) (hasAux : Bool)
    (img_size : List ℕ) (win_size step_size : ℕ) :
    (steps_along_each num_windows hasAux img_size win_size step_size).length =
      num_windows + (if hasAux then 1 else 0) := by
  cases hasAux <;> simp [steps_along_each]

theorem mem_generate_core (num_windows num_location_types ncols : ℕ)
    (hasAux : Bool) (img_size : List ℕ) (win_size step_size : ℕ) (row : List ℕ)
    (hrow : row ∈ generate_core num_windows num_location_types ncols hasAux
      img_size win_size step_size) :
    ∃ t ∈ meshgridColumns (steps_along_each num_windows hasAux img_size win_size
      step_size), row = makeCoordinate num_windows num_location_types ncols
        hasAux win_size t := by
  rw [generate_core] at hrow
  obtain ⟨t, ht, rfl⟩ := List.mem_map.mp hrow
  exact ⟨t, ht, rfl⟩

theorem aux_enumerate_char (ending : ℕ) (v : ℕ) :
    v ∈ _enumerate_step_points 0 ending 1 1 ↔
      (v + 1 ≤ ending ∨ v = max (ending - 1) 0) := by
  rw [mem_enumerate_step_points, mem_stepPointsLoop 0 ending 1 1 v (by decide)]
  constructor
  · rintro (⟨_, hv⟩ | hv)
    · exact Or.inl hv
    · exact Or.inr hv
  · rintro (hv | hv)
    · exact Or.inl ⟨⟨v, by ring⟩, hv⟩
    · exact Or.inr hv

/-- C5: for a generated coordinate list at an integer or half-integer
spatial rank, every coordinate row has `2 * spatialRank` (truncated)
integer columns; for each windowed dimension `i < numWindowedDims` column
`i` holds a step point of that dimension and column
`i + numCoordinateDims` holds that start plus the window size; when the
rank is fractional, column `numWindowedDims` holds a raw index of the
auxiliary dimension, whose step points come from the enumerator with
window size 1 and grid size 1 — every index fitting a unit window plus the
boundary point. -/
theorem coordinate_layout (k : ℕ) (spatial_rank : ℚ) (img_size : List ℕ)
    (win_size : ℕ) (grid_size : ℤ) (l : List (List ℕ)) (row : List ℕ)
    (hsr : spatial_rank = (k : ℚ) ∨ spatial_rank = (k : ℚ) + 1/2)
    (hgen : generate_grid_coordinates spatial_rank img_size win_size grid_size =
      GenResult.coords l)
    (hrow : row ∈ l) :
    row.length = (⌊2 * spatial_rank⌋).toNat ∧
    (∀ i, i < k →
      row.getD i 0 ∈ _enumerate_step_points 0 (img_size.getD i 0) win_size
        grid_size.toNat ∧
      row.getD (i + (⌈spatial_rank⌉).toNat) 0 = row.getD i 0 + win_size) ∧
    (spatial_rank = (k : ℚ) + 1/2 →
      row.getD k 0 ∈ _enumerate_step_points 0 (img_size.getD k 0) 1 1) ∧
    (∀ v, v ∈ _enumerate_step_points 0 (img_size.getD k 0) 1 1 ↔
      (v + 1 ≤ img_size.getD k 0 ∨ v = max (img_size.getD k 0 - 1) 0)) := by
  have hg : 0 < grid_size := by
    by_contra hng
    rw [generate_grid_coordinates, if_pos (by omega)] at hgen
    simp at hgen
  rcases hsr with rfl | rfl
  · by_cases hassert : ∀ d ∈ img_size.take k, win_size ≤ d
    · rw [generate_int_rank k _ _ _ hg hassert] at hgen
      injection hgen with hl
      subst hl
      obtain ⟨t, ht, rfl⟩ := mem_generate_core _ _ _ _ _ _ _ _ hrow
      obtain ⟨htlen, htmem⟩ := mem_meshgridColumns _ _ ht
      have hsl : (steps_along_each k false img_size win_size
          grid_size.toNat).length = k := by
        rw [length_steps_along_each]
        simp
      obtain ⟨mclen, mccols, _⟩ := makeCoordinate_spec k k (2 * k) false win_size
        t (le_refl k) (by omega) (by intro h; cases h)
      refine ⟨?_, ?_, ?_, fun v => aux_enumerate_char _ v⟩
      · rw [intRank_two_mul_floor_toNat]
        exact mclen
      · intro i hi
        obtain ⟨hstart, hend⟩ := mccols i hi
        constructor
        · rw [hstart]
          have hm := htmem i (by omega)
          rwa [steps_getD_lt k false img_size win_size grid_size.toNat i hi] at hm
        · rw [intRank_ceil_toNat, hend, hstart]
      · intro habs
        exfalso
        have h0 : (0 : ℚ) = 1/2 := by linarith
        norm_num at h0
    · exfalso
      rw [generate_grid_coordinates, if_neg (by omega), intRank_floor_toNat] at hgen
      rw [if_neg hassert] at hgen
      simp at hgen
  · by_cases hassert : ∀ d ∈ img_size.take k, win_size ≤ d
    · rw [generate_half_rank k _ _ _ hg hassert] at hgen
      injection hgen with hl
      subst hl
      obtain ⟨t, ht, rfl⟩ := mem_generate_core _ _ _ _ _ _ _ _ hrow
      obtain ⟨htlen, htmem⟩ := mem_meshgridColumns _ _ ht
      have hsl : (steps_along_each k true img_size win_size
          grid_size.toNat).length = k + 1 := by
        rw [length_steps_along_each]
        simp
      obtain ⟨mclen, mccols, mcaux⟩ := makeCoordinate_spec k (k + 1) (2 * k + 1)
        true win_size t (by omega) (by omega) (fun _ => by omega)
      refine ⟨?_, ?_, ?_, fun v => aux_enumerate_char _ v⟩
      · rw [halfRank_two_mul_floor_toNat]
        exact mclen
      · intro i hi
        obtain ⟨hstart, hend⟩ := mccols i hi
        constructor
        · rw [hstart]
          have hm := htmem i (by omega)
          rwa [steps_getD_lt k true img_size win_size grid_size.toNat i hi] at hm
        · rw [halfRank_ceil_toNat, hend, hstart]
      · intro _
        rw [mcaux rfl]
        have hm := htmem k (by omega)
        rwa [steps_getD_aux k img_size win_size grid_size.toNat] at hm
    · exfalso
      rw [generate_grid_coordinates, if_neg (by omega), halfRank_floor_toNat] at hgen
      rw [if_neg hassert] at hgen
      simp at hgen

theorem coordinate_layout_witness :
    [0, 0, 0, 4, 4].length = (⌊2 * (((2 : ℕ) : ℚ) + 1/2)⌋).toNat ∧
    (∀ i, i < 2 →
      [0, 0, 0, 4, 4].getD i 0 ∈ _enumerate_step_points 0 ([10, 10, 3].getD i 0)
        4 (3 : ℤ).toNat ∧
      [0, 0, 0, 4, 4].getD (i + (⌈((2 : ℕ) : ℚ) + 1/2⌉).toNat) 0 =
        [0, 0, 0, 4, 4].getD i 0 + 4) ∧
    (((2 : ℕ) : ℚ) + 1/2 = ((2 : ℕ) : ℚ) + 1/2 →
      [0, 0, 0, 4, 4].getD 2 0 ∈ _enumerate_step_points 0 ([10, 10, 3].getD 2 0) 1 1) ∧
    (∀ v, v ∈ _enumerate_step_points 0 ([10, 10, 3].getD 2 0) 1 1 ↔
      (v + 1 ≤ [10, 10, 3].getD 2 0 ∨ v = max ([10, 10, 3].getD 2 0 - 1) 0)) :=
  coordinate_layout 2 (((2 : ℕ) : ℚ) + 1/2) [10, 10, 3] 4 3
    (generate_core 2 (2 + 1) (2 * 2 + 1) true [10, 10, 3] 4 (3 : ℤ).toNat)
    [0, 0, 0, 4, 4] (Or.inr rfl)
    (generate_half_rank 2 [10, 10, 3] 4 3 (by decide) (by decide)) (by decide)
